import Mathlib

/-!
Verification of the case-opening economy engine (src/main.py) against its
design document.  The Python services are shallowly embedded: strings are
lists of characters, database tables are lists of records, SQLAlchemy row
mutation is explicit record update, and Python exceptions are Option
failures.  The binary64 arithmetic of the sale-price computation is
modelled exactly over the natural numbers.
-/

set_option maxRecDepth 10000

/-! ## Character-list utilities (Python str operations) -/

/-- Worker for splitOnChar: returns the piece before the first separator
together with the remaining pieces. -/
def splitOnCharAux (c : Char) : List Char → List Char × List (List Char)
  | [] => ([], [])
  | x :: xs =>
    let r := splitOnCharAux c xs
    if x = c then ([], r.1 :: r.2) else (x :: r.1, r.2)

/-- Python str.split with a single-character separator: splits on every
occurrence, so the result always has one more element than the number of
separators, and the empty string splits to a single empty piece. -/
def splitOnChar (c : Char) (s : List Char) : List (List Char) :=
  (splitOnCharAux c s).1 :: (splitOnCharAux c s).2

/-- Lexicographic comparison of character lists by code point, the order
Python uses to compare strings. -/
def lexLe : List Char → List Char → Bool
  | [], _ => true
  | _ :: _, [] => false
  | a :: as, b :: bs => if a < b then true else if b < a then false else lexLe as bs

/-- One insertion step of a stable insertion sort on key-value pairs,
ordering by key and keeping equal keys in encounter order. -/
def insertPair (p : List Char × List Char) :
    List (List Char × List Char) → List (List Char × List Char)
  | [] => [p]
  | q :: qs => if lexLe q.1 p.1 then q :: insertPair p qs else p :: q :: qs

/-- Stable sort of key-value pairs by key; agrees with the stable
list.sort of the source because a stable sort by key is unique. -/
def sortPairs (l : List (List Char × List Char)) : List (List Char × List Char) :=
  l.foldl (fun acc p => insertPair p acc) []

/-! ## AuthService.verify_telegram_init_data (src/main.py lines 262-293) -/

/-- The characters of the reserved key named hash. -/
def hashKey : List Char := ['h', 'a', 's', 'h']

/-- One segment of the payload, parsed exactly as the source line
`key, value = pair.split('=')`: the unpacking succeeds only when the
segment contains exactly one equals sign, and any other shape raises,
which the enclosing handler turns into a false verdict. -/
def parseSegment (s : List Char) : Option (List Char × List Char) :=
  match splitOnChar '=' s with
  | [k, v] => some (k, v)
  | _ => none

/-- One iteration of the parsing loop of the source: a segment whose key
is hash records the hash value, any other segment is appended to the
data pairs, and a malformed segment aborts the whole parse. -/
def parseStep (acc : List (List Char × List Char) × Option (List Char)) (seg : List Char) :
    Option (List (List Char × List Char) × Option (List Char)) :=
  match parseSegment seg with
  | none => none
  | some (k, v) =>
    if k = hashKey then some (acc.1, some v) else some (acc.1 ++ [(k, v)], acc.2)

/-- The parsing phase of verify_telegram_init_data: split the payload on
the ampersand and run the loop, returning the collected data pairs and
the extracted hash value, or none when some segment raised. -/
def parseInitData (init_data : List Char) :
    Option (List (List Char × List Char) × Option (List Char)) :=
  (splitOnChar '&' init_data).foldlM parseStep ([], none)

/-- The check string of the source: sort the data pairs by key and join
them as key=value lines separated by the newline character. -/
def checkString (pairs : List (List Char × List Char)) : List Char :=
  List.intercalate ['\n'] ((sortPairs pairs).map (fun p => p.1 ++ '=' :: p.2))

/-- AuthService.verify_telegram_init_data.  The call into the hashlib and
hmac libraries is abstracted by the parameter hmacHex, standing for the
lowercase-hex HMAC-SHA256 keyed by the SHA-256 digest of the bot token;
everything else follows the source line by line: parse, reject a missing
or empty hash value, sort, join, and compare the computed digest with
the supplied one. -/
def verify_telegram_init_data (hmacHex : List Char → List Char) (init_data : List Char) : Bool :=
  match parseInitData init_data with
  | none => false
  | some (pairs, hv?) =>
    match hv? with
    | none => false
    | some hv =>
      if hv = [] then false
      else hmacHex (checkString pairs) == hv

/-- Variant following the words of the design document instead of the
source: each segment is split on the FIRST equals sign only, everything
after it being kept as the value, so a value may itself contain equals
signs.  Used to compare the documented parser with the implemented one. -/
def parseSegmentFirst (s : List Char) : Option (List Char × List Char) :=
  match splitOnChar '=' s with
  | [] => none
  | [_] => none
  | k :: r :: rest => some (k, List.intercalate ['='] (r :: rest))

/-- verify as the design document describes the parsing: identical to
verify_telegram_init_data except that segments are split on the first
equals sign only. -/
def verifyFirstSplit (hmacHex : List Char → List Char) (init_data : List Char) : Bool :=
  match (splitOnChar '&' init_data).foldlM
      (fun acc seg =>
        match parseSegmentFirst seg with
        | none => none
        | some (k, v) =>
          if k = hashKey then some (acc.1, some v) else some (acc.1 ++ [(k, v)], acc.2))
      (([], none) : List (List Char × List Char) × Option (List Char)) with
  | none => false
  | some (pairs, hv?) =>
    match hv? with
    | none => false
    | some hv =>
      if hv = [] then false
      else hmacHex (checkString pairs) == hv

/-! ## Exact binary64 model of the sale-price computation

The source computes `int(nft.price * SELL_PERCENT)` with
`SELL_PERCENT = 0.7`.  The literal 0.7 denotes the IEEE-754 binary64
value 6305039478318694 / 2^53 (the nearest double, obtained by rounding
7/10 * 2^53 = 6305039478318694.4 to the nearest integer).  Multiplying
an integer price by it converts the price to a double (round to 53
significant bits, ties to even), forms the exact product, rounds it
again to 53 significant bits, and truncates toward zero.  All of this is
exact dyadic arithmetic, modelled here over the natural numbers. -/

/-- Fuel-driven bit length so that the recursion is structural. -/
def bitLenAux : Nat → Nat → Nat
  | 0, _ => 0
  | fuel + 1, n => if n = 0 then 0 else bitLenAux fuel (n / 2) + 1

/-- Number of binary digits of a natural number. -/
def bitLen (n : Nat) : Nat := bitLenAux n n

/-- Round a natural number to 53 significant bits, ties to even: the
significand rounding of IEEE-754 binary64 on integer values. -/
def roundSig53 (n : Nat) : Nat :=
  let b := bitLen n
  if b ≤ 53 then n
  else
    let s := b - 53
    let q := n / 2 ^ s
    let r := n % 2 ^ s
    if 2 * r > 2 ^ s || (2 * r == 2 ^ s && q % 2 == 1) then (q + 1) * 2 ^ s else q * 2 ^ s

/-- The mantissa of the double nearest to 0.7, scaled by 2^53. -/
def mantissa07 : Nat := 6305039478318694

/-- Python int(p * 0.7) for a non-negative integer p under binary64
semantics: round p to a double, multiply exactly by 6305039478318694/2^53,
round the product to a double, truncate.  Division by 2^53 after rounding
the integer numerator to 53 significant bits realises exactly that. -/
def truncMul07Nat (p : Nat) : Nat :=
  roundSig53 (roundSig53 p * mantissa07) / 9007199254740992

/-- Python int(p * 0.7) on an arbitrary integer: the double product is
odd in p and int() truncates toward zero, so the negative case mirrors
the non-negative one. -/
def truncMul07 (p : Int) : Int :=
  if 0 ≤ p then (truncMul07Nat p.toNat : Int) else -(truncMul07Nat (-p).toNat : Int)

/-! ## Data model (src/main.py lines 56-121) -/

/-- users table. -/
structure User where
  id : Nat
  telegram_id : Int
  username : Option String
  first_name : Option String
  last_name : Option String
  stars_balance : Int
  total_spent_stars : Int
  total_cases_opened : Int
deriving DecidableEq, Repr

/-- nfts table. -/
structure NFT where
  id : Nat
  name : String
  description : Option String
  rarity : String
  price : Int
  image_url : Option String
  is_active : Bool
deriving DecidableEq, Repr

/-- cases table. -/
structure Case where
  id : Nat
  name : String
  description : Option String
  price_stars : Int
  image_url : Option String
  is_active : Bool
deriving DecidableEq, Repr

/-- case_nfts table: the weighted association of a case with its items. -/
structure CaseNFT where
  id : Nat
  case_id : Nat
  nft_id : Nat
  chance : ℚ
  is_active : Bool
deriving DecidableEq, Repr

/-- user_nfts table: an inventory entry. -/
structure UserNFT where
  id : Nat
  user_id : Nat
  nft_id : Nat
  is_sold : Bool
  sold_price : Option Int
  opened_from_case_id : Option Nat
deriving DecidableEq, Repr

/-- opening_history table: the append-only audit row. -/
structure OpeningHistory where
  id : Nat
  user_id : Nat
  case_id : Nat
  nft_id : Nat
  stars_spent : Int
deriving DecidableEq, Repr

/-- The whole relational store. -/
structure DB where
  users : List User
  nfts : List NFT
  cases : List Case
  case_nfts : List CaseNFT
  user_nfts : List UserNFT
  history : List OpeningHistory
deriving DecidableEq, Repr

/-- Mutate the first element satisfying the predicate, leaving the rest
of the list untouched: the effect of updating the single row returned by
a query and committing. -/
def updateFirst (p : α → Bool) (f : α → α) : List α → List α
  | [] => []
  | x :: xs => if p x then f x :: xs else x :: updateFirst p f xs

/-- Largest inventory-entry id present, 0 when the table is empty. -/
def maxUserNftId (l : List UserNFT) : Nat :=
  l.foldr (fun un m => max un.id m) 0

/-- Fresh primary key for a new inventory entry. -/
def nextUserNftId (db : DB) : Nat := maxUserNftId db.user_nfts + 1

/-- Largest user id present, 0 when the table is empty. -/
def maxUserId (l : List User) : Nat :=
  l.foldr (fun u m => max u.id m) 0

/-! ## CaseService (src/main.py lines 154-196) -/

/-- The dictionary built per row by CaseService.get_case_nfts. -/
structure CaseItem where
  id : Nat
  name : String
  description : Option String
  rarity : String
  price : Int
  image_url : Option String
  chance : ℚ
deriving DecidableEq, Repr

/-- CaseService.get_case_nfts: join case_nfts with nfts on the item id,
keep the rows of the requested case where both the association and the
item are active, and package each as a dictionary. -/
def get_case_nfts (db : DB) (case_id : Nat) : List CaseItem :=
  (db.case_nfts.filter (fun cn => cn.case_id == case_id && cn.is_active)).filterMap
    (fun cn =>
      (db.nfts.find? (fun n => n.id == cn.nft_id && n.is_active)).map
        (fun n => { id := n.id, name := n.name, description := n.description,
                    rarity := n.rarity, price := n.price, image_url := n.image_url,
                    chance := cn.chance }))

/-- Index of the first strictly-exceeded cumulative weight: the value of
bisect_right on the accumulated weights at the draw point, as used by
random.choices. -/
def firstExceed (ws : List ℚ) (r : ℚ) : Nat :=
  match ws with
  | [] => 0
  | w :: ws' => if r < w then 0 else firstExceed ws' (r - w) + 1

/-- CaseService.open_case: an empty pool yields None, otherwise the item
at the bisect index of the uniform draw point r in the cumulative
weights is returned; random.choices clamps the index at the last
position. -/
def open_case (case_nfts : List CaseItem) (r : ℚ) : Option CaseItem :=
  if case_nfts = [] then none
  else case_nfts.get? (min (firstExceed (case_nfts.map (fun i => i.chance)) r)
      (case_nfts.length - 1))

/-! ## UserService (src/main.py lines 198-258) -/

/-- UserService.get_or_create_user: return the user owning the telegram
id if one exists, otherwise insert a fresh row with the starting balance
of 1000 and zeroed counters. -/
def get_or_create_user (db : DB) (telegram_id : Int)
    (username first_name last_name : Option String) : User × DB :=
  match db.users.find? (fun u => u.telegram_id == telegram_id) with
  | some u => (u, db)
  | none =>
    let u : User :=
      { id := maxUserId db.users + 1, telegram_id := telegram_id,
        username := username, first_name := first_name, last_name := last_name,
        stars_balance := 1000, total_spent_stars := 0, total_cases_opened := 0 }
    (u, { db with users := db.users ++ [u] })

/-- UserService.add_nft_to_inventory: insert a fresh unsold inventory
entry for the given user, item and case. -/
def add_nft_to_inventory (db : DB) (user_id nft_id case_id : Nat) : UserNFT × DB :=
  let un : UserNFT :=
    { id := nextUserNftId db, user_id := user_id, nft_id := nft_id,
      is_sold := false, sold_price := none, opened_from_case_id := some case_id }
  (un, { db with user_nfts := db.user_nfts ++ [un] })

/-- The row filter of UserService.sell_nft: the entry with the requested
id, belonging to the requesting user, not yet sold. -/
def sellPred (user_nft_id user_id : Nat) (un : UserNFT) : Bool :=
  un.id == user_nft_id && un.user_id == user_id && un.is_sold == false

/-- UserService.sell_nft.  A failed row filter returns None with the
store untouched.  Otherwise the referenced item and the user row are
loaded (a dangling reference would raise, modelled by the outer none),
the sale price int(price * 0.7) is computed, the entry is marked sold at
that price and the balance credited, all committed together. -/
def sell_nft (db : DB) (user_nft_id user_id : Nat) : Option (Option Int × DB) :=
  match db.user_nfts.find? (sellPred user_nft_id user_id) with
  | none => some (none, db)
  | some un =>
    match db.nfts.find? (fun n => n.id == un.nft_id) with
    | none => none
    | some nft =>
      let sell_price := truncMul07 nft.price
      match db.users.find? (fun u => u.id == user_id) with
      | none => none
      | some _ =>
        some (some sell_price,
          { db with
            user_nfts := updateFirst (sellPred user_nft_id user_id)
              (fun x => { x with is_sold := true, sold_price := some sell_price })
              db.user_nfts,
            users := updateFirst (fun u => u.id == user_id)
              (fun u => { u with stars_balance := u.stars_balance + sell_price })
              db.users })

/-! ## The open-case ledger operation -/

/-- Failure kinds of the open-case operation, as the design document
names them. -/
inductive OpenErr where
  | userNotFound
  | caseNotFound
  | emptyPool
  | insufficientFunds
deriving DecidableEq, Repr

/-- The atomic write of a successful case opening: debit the balance,
bump the spend and open counters, insert the fresh inventory entry and
append the audit row. -/
def applyOpen (db : DB) (user_id case_id : Nat) (c : Case) (item : CaseItem) : DB :=
  { db with
    users := updateFirst (fun u => u.id == user_id)
      (fun u => { u with
        stars_balance := u.stars_balance - c.price_stars,
        total_spent_stars := u.total_spent_stars + c.price_stars,
        total_cases_opened := u.total_cases_opened + 1 }) db.users,
    user_nfts := db.user_nfts ++
      [{ id := nextUserNftId db, user_id := user_id, nft_id := item.id,
         is_sold := false, sold_price := none,
         opened_from_case_id := some case_id }],
    history := db.history ++
      [{ id := db.history.length + 1, user_id := user_id, case_id := case_id,
         nft_id := item.id, stars_spent := c.price_stars }] }

/-- The checks and the draw of a case opening, once the user and the
active case rows are in hand. -/
def openCaseChecked (db : DB) (user : User) (c : Case) (user_id case_id : Nat) (r : ℚ) :
    Except OpenErr (CaseItem × Int) × DB :=
  if get_case_nfts db case_id = [] then (.error .emptyPool, db)
  else if user.stars_balance < c.price_stars then (.error .insufficientFunds, db)
  else
    match open_case (get_case_nfts db case_id) r with
    | none => (.error .emptyPool, db)
    | some item =>
      (.ok (item, user.stars_balance - c.price_stars), applyOpen db user_id case_id c item)

/-- Modelled from the spec: the open-case endpoint is absent from the
provided source, which breaks off inside the page template before the
route handlers, so this follows section 4.4 of the design document.
Load the user, load the active case, fetch the active contents through
CaseService.get_case_nfts, fail on an empty pool, fail with
insufficientFunds when the balance is below the case price, draw through
CaseService.open_case at the uniform draw point r, and atomically debit
the balance, bump the spend and open counters, insert the inventory
entry and append the audit row.  Every failure leaves the store
untouched. -/
def openCase (db : DB) (user_id case_id : Nat) (r : ℚ) :
    Except OpenErr (CaseItem × Int) × DB :=
  match db.users.find? (fun u => u.id == user_id) with
  | none => (.error .userNotFound, db)
  | some user =>
    match db.cases.find? (fun c => c.id == case_id && c.is_active) with
    | none => (.error .caseNotFound, db)
    | some c => openCaseChecked db user c user_id case_id r

theorem openCase_found {db : DB} {user_id case_id : Nat} {r : ℚ} {user : User}
    {c : Case} (hu : db.users.find? (fun x => x.id == user_id) = some user)
    (hc : db.cases.find? (fun x => x.id == case_id && x.is_active) = some c) :
    openCase db user_id case_id r = openCaseChecked db user c user_id case_id r := by
  unfold openCase
  rw [hu, hc]

/-! ## Payload construction -/

/-- The textual segment of one key-value pair. -/
def segOf (p : List Char × List Char) : List Char := p.1 ++ '=' :: p.2

/-- A signed identity payload: the pairs joined with ampersands, plus the
hash pair carrying the given value. -/
def assemble (pairs : List (List Char × List Char)) (hv : List Char) : List Char :=
  List.intercalate ['&'] (pairs.map segOf ++ [hashKey ++ '=' :: hv])

/-- Well-formedness of the data pairs of a payload: no separator
characters inside keys or values and no key equal to hash. -/
def pairsWF (pairs : List (List Char × List Char)) : Prop :=
  ∀ p ∈ pairs, '&' ∉ p.1 ∧ '&' ∉ p.2 ∧ '=' ∉ p.1 ∧ '=' ∉ p.2 ∧ p.1 ≠ hashKey

instance (pairs : List (List Char × List Char)) : Decidable (pairsWF pairs) := by
  unfold pairsWF; infer_instance

/-- Well-formedness of a hash value: no separator characters, as in any
lowercase-hex digest. -/
def hashWF (hv : List Char) : Prop := '&' ∉ hv ∧ '=' ∉ hv

instance (hv : List Char) : Decidable (hashWF hv) := by
  unfold hashWF; infer_instance

/-! ## Lemmas about splitting and joining -/

theorem splitOnCharAux_not_mem {c : Char} : ∀ {s : List Char}, c ∉ s →
    splitOnCharAux c s = (s, []) := by
  intro s
  induction s with
  | nil => intro _; rfl
  | cons x xs ih =>
    intro h
    have hx : ¬(x = c) := fun e => h (e ▸ List.mem_cons_self x xs)
    have hxs : c ∉ xs := fun m => h (List.mem_cons_of_mem _ m)
    simp [splitOnCharAux, hx, ih hxs]

theorem splitOnChar_not_mem {c : Char} {s : List Char} (h : c ∉ s) :
    splitOnChar c s = [s] := by
  simp [splitOnChar, splitOnCharAux_not_mem h]

theorem splitOnCharAux_append_cons {c : Char} {a : List Char} (h : c ∉ a) (t : List Char) :
    splitOnCharAux c (a ++ c :: t) = (a, (splitOnCharAux c t).1 :: (splitOnCharAux c t).2) := by
  induction a with
  | nil => simp [splitOnCharAux]
  | cons x xs ih =>
    have hx : ¬(x = c) := fun e => h (e ▸ List.mem_cons_self x xs)
    have hxs : c ∉ xs := fun m => h (List.mem_cons_of_mem _ m)
    simp [splitOnCharAux, hx, ih hxs]

theorem splitOnChar_append_cons {c : Char} {a : List Char} (h : c ∉ a) (t : List Char) :
    splitOnChar c (a ++ c :: t) = a :: splitOnChar c t := by
  simp [splitOnChar, splitOnCharAux_append_cons h]

theorem intercalate_single (sep a : List Char) : List.intercalate sep [a] = a := by
  simp [List.intercalate, List.intersperse]

theorem intercalate_cons_of_ne_nil (sep a : List Char) {l : List (List Char)} (h : l ≠ []) :
    List.intercalate sep (a :: l) = a ++ sep ++ List.intercalate sep l := by
  cases l with
  | nil => exact absurd rfl h
  | cons b bs => simp [List.intercalate, List.intersperse]

theorem splitOnChar_intercalate (c : Char) : ∀ (segs : List (List Char)), segs ≠ [] →
    (∀ s ∈ segs, c ∉ s) → splitOnChar c (List.intercalate [c] segs) = segs := by
  intro segs
  induction segs with
  | nil => intro h; exact absurd rfl h
  | cons a l ih =>
    intro _ hfree
    have ha : c ∉ a := hfree a (List.mem_cons_self a l)
    cases l with
    | nil => rw [intercalate_single]; exact splitOnChar_not_mem ha
    | cons b bs =>
      rw [intercalate_cons_of_ne_nil _ _ (by simp)]
      have : a ++ [c] ++ List.intercalate [c] (b :: bs)
          = a ++ c :: List.intercalate [c] (b :: bs) := by simp
      rw [this, splitOnChar_append_cons ha,
        ih (by simp) (fun s hs => hfree s (List.mem_cons_of_mem _ hs))]

theorem intercalate_split_seg (c : Char) (x y : List Char) :
    ∀ (A : List (List Char)) (B : List (List Char)),
    List.intercalate [c] (A ++ (x ++ c :: y) :: B) = List.intercalate [c] (A ++ x :: y :: B) := by
  intro A
  induction A with
  | nil =>
    intro B
    cases B with
    | nil =>
      rw [List.nil_append, List.nil_append, intercalate_single,
        intercalate_cons_of_ne_nil [c] x (by simp), intercalate_single]
      simp
    | cons b bs =>
      have hb : (b :: bs : List (List Char)) ≠ [] := by simp
      have hyb : (y :: b :: bs : List (List Char)) ≠ [] := by simp
      rw [List.nil_append, List.nil_append,
        intercalate_cons_of_ne_nil [c] (x ++ c :: y) hb,
        intercalate_cons_of_ne_nil [c] x hyb,
        intercalate_cons_of_ne_nil [c] y hb]
      simp
  | cons a A ih =>
    intro B
    have h1 : (A ++ (x ++ c :: y) :: B : List (List Char)) ≠ [] := by simp
    have h2 : (A ++ x :: y :: B : List (List Char)) ≠ [] := by simp
    rw [List.cons_append, List.cons_append,
      intercalate_cons_of_ne_nil [c] a h1,
      intercalate_cons_of_ne_nil [c] a h2, ih B]

/-! ## Lemmas about the payload parser -/

theorem parseSegment_of_wf {k v : List Char} (hk : '=' ∉ k) (hv : '=' ∉ v) :
    parseSegment (k ++ '=' :: v) = some (k, v) := by
  unfold parseSegment
  rw [splitOnChar_append_cons hk, splitOnChar_not_mem hv]

theorem parseSegment_no_eq {s : List Char} (h : '=' ∉ s) : parseSegment s = none := by
  unfold parseSegment
  rw [splitOnChar_not_mem h]

theorem parseSegment_two_eq {k a b : List Char} (hk : '=' ∉ k) (ha : '=' ∉ a)
    (hb : '=' ∉ b) : parseSegment (k ++ '=' :: (a ++ '=' :: b)) = none := by
  unfold parseSegment
  rw [splitOnChar_append_cons hk, splitOnChar_append_cons ha, splitOnChar_not_mem hb]

theorem hashKey_no_eq : '=' ∉ hashKey := by decide

theorem hashKey_no_amp : '&' ∉ hashKey := by decide

theorem foldlM_parseStep_pairs : ∀ (pairs : List (List Char × List Char)),
    pairsWF pairs → ∀ acc h0,
    (pairs.map segOf).foldlM parseStep (acc, h0) = some (acc ++ pairs, h0) := by
  intro pairs
  induction pairs with
  | nil => intro _ acc h0; simp
  | cons p ps ih =>
    intro hw acc h0
    obtain ⟨_, _, h3, h4, h5⟩ := hw p (List.mem_cons_self p ps)
    have step : parseStep (acc, h0) (segOf p) = some (acc ++ [p], h0) := by
      unfold parseStep segOf
      rw [parseSegment_of_wf h3 h4]
      simp [h5]
    rw [List.map_cons, List.foldlM_cons, step]
    simp only [Option.bind_eq_bind, Option.some_bind]
    rw [ih (fun q hq => hw q (List.mem_cons_of_mem _ hq)) (acc ++ [p]) h0]
    simp

theorem foldlM_parseStep_none : ∀ (segs : List (List Char)),
    (∃ s ∈ segs, parseSegment s = none) → ∀ acc,
    segs.foldlM parseStep acc = none := by
  intro segs
  induction segs with
  | nil => intro h; exact absurd h (by simp)
  | cons x xs ih =>
    intro h acc
    rw [List.foldlM_cons]
    rcases hx : parseSegment x with _ | kv
    · have : parseStep acc x = none := by unfold parseStep; rw [hx]
      simp [this]
    · have hxs : ∃ s ∈ xs, parseSegment s = none := by
        rcases h with ⟨s, hs, hps⟩
        rcases List.mem_cons.1 hs with rfl | hs'
        · exact absurd hps (by rw [hx]; simp)
        · exact ⟨s, hs', hps⟩
      have : ∃ acc', parseStep acc x = some acc' := by
        unfold parseStep
        rw [hx]
        by_cases hk : kv.1 = hashKey <;> simp [hk]
      rcases this with ⟨acc', hacc⟩
      simp only [hacc, Option.bind_eq_bind, Option.some_bind]
      exact ih hxs acc'

theorem segOf_no_amp {pairs : List (List Char × List Char)} (hw : pairsWF pairs) :
    ∀ s ∈ pairs.map segOf, '&' ∉ s := by
  intro s hs
  rcases List.mem_map.1 hs with ⟨p, hp, rfl⟩
  obtain ⟨h1, h2, _, _, _⟩ := hw p hp
  intro hmem
  rcases List.mem_append.1 hmem with h | h
  · exact h1 h
  · rcases List.mem_cons.1 h with h | h
    · exact absurd h (by decide)
    · exact h2 h

theorem parseInitData_assemble {pairs : List (List Char × List Char)} {hv : List Char}
    (hw : pairsWF pairs) (h1 : '&' ∉ hv) (h2 : '=' ∉ hv) :
    parseInitData (assemble pairs hv) = some (pairs, some hv) := by
  unfold parseInitData assemble
  rw [splitOnChar_intercalate '&' _ (by simp)
    (by
      intro s hs
      rcases List.mem_append.1 hs with h | h
      · exact segOf_no_amp hw s h
      · rcases List.mem_cons.1 h with rfl | h
        · intro hmem
          rcases List.mem_append.1 hmem with h | h
          · exact hashKey_no_amp h
          · rcases List.mem_cons.1 h with h | h
            · exact absurd h (by decide)
            · exact h1 h
        · exact absurd h (List.not_mem_nil s))]
  rw [List.foldlM_append, foldlM_parseStep_pairs pairs hw [] none]
  simp only [Option.bind_eq_bind, Option.some_bind, List.nil_append]
  have step : parseStep (pairs, none) (hashKey ++ '=' :: hv)
      = some (pairs, some hv) := by
    unfold parseStep
    rw [parseSegment_of_wf hashKey_no_eq h2]
    simp
  rw [List.foldlM_cons, step]
  simp

theorem verify_parse_none {f : List Char → List Char} {payload : List Char}
    (h : parseInitData payload = none) :
    verify_telegram_init_data f payload = false := by
  unfold verify_telegram_init_data
  rw [h]

theorem verify_parse_some {f : List Char → List Char} {payload : List Char}
    {pairs : List (List Char × List Char)} {hv : List Char}
    (h : parseInitData payload = some (pairs, some hv)) (hne : hv ≠ []) :
    verify_telegram_init_data f payload = (f (checkString pairs) == hv) := by
  unfold verify_telegram_init_data
  rw [h]
  simp [hne]

theorem parseInitData_intercalate_none {segs : List (List Char)} (hne : segs ≠ [])
    (hfree : ∀ s ∈ segs, '&' ∉ s) (hbad : ∃ s ∈ segs, parseSegment s = none) :
    parseInitData (List.intercalate ['&'] segs) = none := by
  unfold parseInitData
  rw [splitOnChar_intercalate '&' segs hne hfree]
  exact foldlM_parseStep_none segs hbad _

theorem hashSeg_no_amp {hv : List Char} (h : '&' ∉ hv) :
    '&' ∉ hashKey ++ '=' :: hv := by
  intro hmem
  rcases List.mem_append.1 hmem with hm | hm
  · exact hashKey_no_amp hm
  · rcases List.mem_cons.1 hm with hm | hm
    · exact absurd hm (by decide)
    · exact h hm

theorem segOf_no_amp_one {k v : List Char} (hk : '&' ∉ k) (hv : '&' ∉ v) :
    '&' ∉ k ++ '=' :: v := by
  intro hmem
  rcases List.mem_append.1 hmem with hm | hm
  · exact hk hm
  · rcases List.mem_cons.1 hm with hm | hm
    · exact absurd hm (by decide)
    · exact hv hm

/-- Claim C1: a payload assembled from separator-free key-value pairs (no
key equal to hash) joined with ampersands, plus a hash pair holding the
keyed digest of the sorted key=value check string, verifies; and any
single-character change to the hash value, or to a field value whose new
check string hashes differently, makes verification fail. -/
theorem verify_valid_true_and_flip_false
    (f : List Char → List Char) (pairs : List (List Char × List Char))
    (hw : pairsWF pairs) (hh : hashWF (f (checkString pairs)))
    (hne : f (checkString pairs) ≠ []) :
    verify_telegram_init_data f (assemble pairs (f (checkString pairs))) = true
    ∧ (∀ i c', i < (f (checkString pairs)).length →
        (f (checkString pairs)).set i c' ≠ f (checkString pairs) →
        verify_telegram_init_data f
          (assemble pairs ((f (checkString pairs)).set i c')) = false)
    ∧ (∀ pre k v post i c', pairs = pre ++ (k, v) :: post →
        i < v.length → v.set i c' ≠ v →
        f (checkString (pre ++ (k, v.set i c') :: post)) ≠ f (checkString pairs) →
        verify_telegram_init_data f
          (assemble (pre ++ (k, v.set i c') :: post) (f (checkString pairs))) = false) := by
  obtain ⟨hamp, heq⟩ := hh
  refine ⟨?_, ?_, ?_⟩
  · rw [verify_parse_some (parseInitData_assemble hw hamp heq) hne]
    exact beq_self_eq_true _
  · intro i c' hi hset
    have hdec : (f (checkString pairs)).set i c'
        = (f (checkString pairs)).take i ++ c' :: (f (checkString pairs)).drop (i + 1) :=
      List.set_eq_take_cons_drop c' hi
    have hta : '&' ∉ (f (checkString pairs)).take i :=
      fun m => hamp (List.take_subset _ _ m)
    have hte : '=' ∉ (f (checkString pairs)).take i :=
      fun m => heq (List.take_subset _ _ m)
    have hda : '&' ∉ (f (checkString pairs)).drop (i + 1) :=
      fun m => hamp (List.drop_subset _ _ m)
    have hde : '=' ∉ (f (checkString pairs)).drop (i + 1) :=
      fun m => heq (List.drop_subset _ _ m)
    by_cases hc : c' = '&'
    · subst hc
      rw [hdec]
      apply verify_parse_none
      unfold assemble
      have hre : hashKey ++ '=' :: ((f (checkString pairs)).take i
            ++ '&' :: (f (checkString pairs)).drop (i + 1))
          = (hashKey ++ '=' :: (f (checkString pairs)).take i)
            ++ '&' :: (f (checkString pairs)).drop (i + 1) := by
        simp
      rw [hre, intercalate_split_seg '&' _ _ (pairs.map segOf) []]
      apply parseInitData_intercalate_none (by simp)
      · intro s hs
        rcases List.mem_append.1 hs with h | h
        · exact segOf_no_amp hw s h
        · rcases List.mem_cons.1 h with rfl | h
          · exact segOf_no_amp_one hashKey_no_amp hta
          · rcases List.mem_cons.1 h with rfl | h
            · exact hda
            · exact absurd h (List.not_mem_nil s)
      · refine ⟨(f (checkString pairs)).drop (i + 1), ?_, parseSegment_no_eq hde⟩
        simp
    · by_cases hc2 : c' = '='
      · subst hc2
        rw [hdec]
        apply verify_parse_none
        unfold assemble
        apply parseInitData_intercalate_none (by simp)
        · intro s hs
          rcases List.mem_append.1 hs with h | h
          · exact segOf_no_amp hw s h
          · rcases List.mem_cons.1 h with rfl | h
            · apply hashSeg_no_amp
              intro hm
              rcases List.mem_append.1 hm with h | h
              · exact hta h
              · rcases List.mem_cons.1 h with h | h
                · exact absurd h (by decide)
                · exact hda h
            · exact absurd h (List.not_mem_nil s)
        · refine ⟨hashKey ++ '=' :: ((f (checkString pairs)).take i
              ++ '=' :: (f (checkString pairs)).drop (i + 1)), by simp, ?_⟩
          exact parseSegment_two_eq hashKey_no_eq hte hde
      · have hamp' : '&' ∉ (f (checkString pairs)).set i c' := by
          rw [hdec]
          intro hm
          rcases List.mem_append.1 hm with h | h
          · exact hta h
          · rcases List.mem_cons.1 h with h | h
            · exact hc h.symm
            · exact hda h
        have heq' : '=' ∉ (f (checkString pairs)).set i c' := by
          rw [hdec]
          intro hm
          rcases List.mem_append.1 hm with h | h
          · exact hte h
          · rcases List.mem_cons.1 h with h | h
            · exact hc2 h.symm
            · exact hde h
        have hne' : (f (checkString pairs)).set i c' ≠ [] := by
          rw [hdec]; simp
        rw [verify_parse_some (parseInitData_assemble hw hamp' heq') hne']
        exact beq_eq_false_iff_ne.2 (fun e => hset (e.symm))
  · intro pre k v post i c' hpairs hi hset hcoll
    have hmemkv : (k, v) ∈ pairs := by
      rw [hpairs]; exact List.mem_append.2 (Or.inr (List.mem_cons_self _ _))
    obtain ⟨hk1, hk2, hk3, hk4, hk5⟩ := hw (k, v) hmemkv
    have hdec : v.set i c' = v.take i ++ c' :: v.drop (i + 1) :=
      List.set_eq_take_cons_drop c' hi
    have hta : '&' ∉ v.take i := fun m => hk2 (List.take_subset _ _ m)
    have hte : '=' ∉ v.take i := fun m => hk4 (List.take_subset _ _ m)
    have hda : '&' ∉ v.drop (i + 1) := fun m => hk2 (List.drop_subset _ _ m)
    have hde : '=' ∉ v.drop (i + 1) := fun m => hk4 (List.drop_subset _ _ m)
    have hwpre : pairsWF pre := fun p hp =>
      hw p (by rw [hpairs]; exact List.mem_append.2 (Or.inl hp))
    have hwpost : pairsWF post := fun p hp =>
      hw p (by rw [hpairs]; exact List.mem_append.2 (Or.inr (List.mem_cons_of_mem _ hp)))
    by_cases hc : c' = '&'
    · subst hc
      rw [hdec]
      apply verify_parse_none
      unfold assemble
      have hre : (pre ++ (k, v.take i ++ '&' :: v.drop (i + 1)) :: post).map segOf
            ++ [hashKey ++ '=' :: f (checkString pairs)]
          = pre.map segOf ++ ((k ++ '=' :: v.take i) ++ '&' :: v.drop (i + 1))
            :: (post.map segOf ++ [hashKey ++ '=' :: f (checkString pairs)]) := by
        simp [segOf]
      rw [hre, intercalate_split_seg '&' _ _ (pre.map segOf)
        (post.map segOf ++ [hashKey ++ '=' :: f (checkString pairs)])]
      apply parseInitData_intercalate_none (by simp)
      · intro s hs
        rcases List.mem_append.1 hs with h | h
        · exact segOf_no_amp hwpre s h
        · rcases List.mem_cons.1 h with rfl | h
          · exact segOf_no_amp_one hk1 hta
          · rcases List.mem_cons.1 h with rfl | h
            · exact hda
            · rcases List.mem_append.1 h with h | h
              · exact segOf_no_amp hwpost s h
              · rcases List.mem_cons.1 h with rfl | h
                · exact hashSeg_no_amp hamp
                · exact absurd h (List.not_mem_nil s)
      · exact ⟨v.drop (i + 1), by simp, parseSegment_no_eq hde⟩
    · by_cases hc2 : c' = '='
      · subst hc2
        rw [hdec]
        apply verify_parse_none
        unfold assemble
        apply parseInitData_intercalate_none (by simp)
        · intro s hs
          rcases List.mem_append.1 hs with h | h
          · rcases List.mem_map.1 h with ⟨p, hp, rfl⟩
            rcases List.mem_append.1 hp with hp | hp
            · exact segOf_no_amp hwpre _ (List.mem_map_of_mem segOf hp)
            · rcases List.mem_cons.1 hp with rfl | hp
              · apply segOf_no_amp_one hk1
                intro hm
                rcases List.mem_append.1 hm with h' | h'
                · exact hta h'
                · rcases List.mem_cons.1 h' with h' | h'
                  · exact absurd h' (by decide)
                  · exact hda h'
              · exact segOf_no_amp hwpost _ (List.mem_map_of_mem segOf hp)
          · rcases List.mem_cons.1 h with rfl | h
            · exact hashSeg_no_amp hamp
            · exact absurd h (List.not_mem_nil s)
        · refine ⟨segOf (k, v.take i ++ '=' :: v.drop (i + 1)), ?_, ?_⟩
          · exact List.mem_append.2 (Or.inl (List.mem_map_of_mem segOf
              (List.mem_append.2 (Or.inr (List.mem_cons_self _ _)))))
          · exact parseSegment_two_eq hk3 hte hde
      · have hwnew : pairsWF (pre ++ (k, v.set i c') :: post) := by
          intro p hp
          rcases List.mem_append.1 hp with hp | hp
          · exact hwpre p hp
          · rcases List.mem_cons.1 hp with rfl | hp
            · refine ⟨hk1, ?_, hk3, ?_, hk5⟩
              · rw [hdec]
                intro hm
                rcases List.mem_append.1 hm with h' | h'
                · exact hta h'
                · rcases List.mem_cons.1 h' with h' | h'
                  · exact hc h'.symm
                  · exact hda h'
              · rw [hdec]
                intro hm
                rcases List.mem_append.1 hm with h' | h'
                · exact hte h'
                · rcases List.mem_cons.1 h' with h' | h'
                  · exact hc2 h'.symm
                  · exact hde h'
            · exact hwpost p hp
        rw [verify_parse_some (parseInitData_assemble hwnew hamp heq) hne]
        exact beq_eq_false_iff_ne.2 (fun e => hcoll e)

/-- Witness for C1 at a concrete payload and digest function. -/
theorem verify_valid_true_and_flip_false_witness :
    verify_telegram_init_data (fun _ => ['x', 'y'])
      (assemble [(['a'], ['1']), (['b'], ['2'])] ['x', 'y']) = true :=
  (verify_valid_true_and_flip_false (fun _ => ['x', 'y'])
    [(['a'], ['1']), (['b'], ['2'])]
    (by decide) (by constructor <;> decide) (by decide)).1

theorem splitOnCharAux_count (c : Char) : ∀ s : List Char,
    (splitOnCharAux c s).2.length = s.count c := by
  intro s
  induction s with
  | nil => rfl
  | cons x xs ih =>
    by_cases hx : x = c
    · subst hx
      simp [splitOnCharAux, List.count_cons, ih]
    · simp [splitOnCharAux, hx, List.count_cons, ih, Ne.symm hx]

theorem parseSegment_count_ne_one {s : List Char} (h : s.count '=' ≠ 1) :
    parseSegment s = none := by
  unfold parseSegment splitOnChar
  rcases h2 : (splitOnCharAux '=' s).2 with _ | ⟨a, l⟩
  · rfl
  · cases l with
    | nil =>
      exfalso
      apply h
      have := splitOnCharAux_count '=' s
      rw [h2] at this
      exact this.symm
    | cons b m => rfl

/-- Claim C2 counterexample: with a constant digest function, the payload
a=b=c&hash=x would verify under the documented first-equals-sign parsing
(check string a=b=c, matching hash), but the source parser rejects the
segment a=b=c as malformed, so verify returns false. -/
theorem verify_not_first_split_counterexample :
    verify_telegram_init_data (fun _ => ['x']) ("a=b=c&hash=x").data = false
    ∧ verifyFirstSplit (fun _ => ['x']) ("a=b=c&hash=x").data = true := by
  constructor
  · decide
  · decide

/-- Claim C2 amended: verify splits the payload on the ampersand, but a
segment parses only when it contains exactly one equals sign; a segment
with none, or whose value itself contains an equals sign, is a parse
error that makes verify return false (the embedding is total, so no
fault is raised). -/
theorem verify_false_of_segment_count_ne_one (f : List Char → List Char)
    (payload : List Char)
    (h : ∃ s ∈ splitOnChar '&' payload, s.count '=' ≠ 1) :
    verify_telegram_init_data f payload = false := by
  rcases h with ⟨s, hs, hcount⟩
  apply verify_parse_none
  unfold parseInitData
  exact foldlM_parseStep_none _ ⟨s, hs, parseSegment_count_ne_one hcount⟩ _

/-- Witness for the amended C2 at a concrete malformed payload. -/
theorem verify_false_of_segment_count_ne_one_witness :
    verify_telegram_init_data (fun _ => ['x']) ("a=b=c&hash=x").data = false :=
  verify_false_of_segment_count_ne_one (fun _ => ['x']) ("a=b=c&hash=x").data
    ⟨("a=b=c").data, by decide, by decide⟩

/-- Claim C9: a payload whose hash pair carries the empty value is
rejected exactly as when the hash pair is absent: verify returns false
in both cases, never comparing a digest. -/
theorem verify_empty_hash_false (f : List Char → List Char)
    (pairs : List (List Char × List Char)) (hw : pairsWF pairs) :
    verify_telegram_init_data f (assemble pairs []) = false
    ∧ verify_telegram_init_data f (List.intercalate ['&'] (pairs.map segOf)) = false := by
  constructor
  · have hp := parseInitData_assemble hw (List.not_mem_nil '&') (List.not_mem_nil '=')
    unfold verify_telegram_init_data
    rw [hp]
    simp
  · cases pairs with
    | nil => rfl
    | cons p ps =>
      unfold verify_telegram_init_data parseInitData
      rw [splitOnChar_intercalate '&' _ (by simp) (segOf_no_amp hw),
        foldlM_parseStep_pairs (p :: ps) hw [] none]

/-- Witness for C9 at a concrete payload carrying hash= with no value. -/
theorem verify_empty_hash_false_witness :
    verify_telegram_init_data (fun _ => ['x']) (assemble [(['a'], ['1'])] []) = false :=
  (verify_empty_hash_false (fun _ => ['x']) [(['a'], ['1'])] (by decide)).1

/-- Claim C7: the selector of CaseService.open_case applied to an empty
candidate list yields no item, whatever the draw point: the None result
that the caller surfaces as an empty-pool failure. -/
theorem open_case_empty_pool : ∀ r : ℚ, open_case [] r = none := fun _ => rfl

/-- Claim C10: get_or_create_user on a telegram id that already has a
user returns that stored user and leaves the store untouched: the
balance is not reset to the starting amount and the stored names are not
overwritten by the later contact. -/
theorem get_or_create_user_existing (db : DB) (telegram_id : Int)
    (username first_name last_name : Option String) (u : User)
    (h : db.users.find? (fun x => x.telegram_id == telegram_id) = some u) :
    get_or_create_user db telegram_id username first_name last_name = (u, db)
    ∧ u ∈ db.users := by
  constructor
  · unfold get_or_create_user
    rw [h]
  · exact List.mem_of_find?_eq_some h

/-- A stored user for the concrete witnesses. -/
def sampleUser : User :=
  { id := 1, telegram_id := 5, username := some ("old"), first_name := none,
    last_name := none, stars_balance := 250, total_spent_stars := 40,
    total_cases_opened := 2 }

/-- A one-user store for the concrete witnesses. -/
def sampleDB : DB :=
  { users := [sampleUser], nfts := [], cases := [], case_nfts := [],
    user_nfts := [], history := [] }

/-- Witness for C10: a later contact with fresh names returns the stored
user with balance 250 and the old username, not a reset record. -/
theorem get_or_create_user_existing_witness :
    get_or_create_user sampleDB 5 (some ("new")) (some ("n")) none = (sampleUser, sampleDB)
    ∧ sampleUser ∈ sampleDB.users :=
  get_or_create_user_existing sampleDB 5 (some ("new")) (some ("n")) none sampleUser (by decide)

/-- Claim C5: openCase fails with insufficientFunds whenever the balance
of the (present) user is below the price of the (active) case with a
non-empty pool, and the failure leaves the store untouched. -/
theorem openCase_insufficient_funds (db : DB) (user_id case_id : Nat) (r : ℚ)
    (u : User) (c : Case)
    (hu : db.users.find? (fun x => x.id == user_id) = some u)
    (hc : db.cases.find? (fun x => x.id == case_id && x.is_active) = some c)
    (hpool : get_case_nfts db case_id ≠ [])
    (hfunds : u.stars_balance < c.price_stars) :
    openCase db user_id case_id r = (.error .insufficientFunds, db) := by
  rw [openCase_found hu hc]
  unfold openCaseChecked
  rw [if_neg hpool, if_pos hfunds]

/-- The user of the C5 witness store, with balance 100. -/
def fundsUser : User :=
  { id := 1, telegram_id := 5, username := none, first_name := none,
    last_name := none, stars_balance := 100, total_spent_stars := 0,
    total_cases_opened := 0 }

/-- The case of the C5 witness store, priced 150. -/
def fundsCase : Case :=
  { id := 1, name := "box", description := none, price_stars := 150,
    image_url := none, is_active := true }

/-- Store for the C5 witness: one user with balance 100, one active case
priced 150 whose pool holds one active item. -/
def fundsDB : DB :=
  { users := [fundsUser],
    nfts := [{ id := 1, name := "gem", description := none, rarity := "rare",
               price := 40, image_url := none, is_active := true }],
    cases := [fundsCase],
    case_nfts := [{ id := 1, case_id := 1, nft_id := 1, chance := 1, is_active := true }],
    user_nfts := [], history := [] }

/-- Witness for C5: balance 100 against price 150 is rejected with the
funds error and the store is unchanged. -/
theorem openCase_insufficient_funds_witness :
    openCase fundsDB 1 1 0 = (.error .insufficientFunds, fundsDB) :=
  openCase_insufficient_funds fundsDB 1 1 0 fundsUser fundsCase (by decide) (by decide)
    (by decide) (by decide)

/-! ## Lemmas about row updates -/

theorem updateFirst_decomp {α : Type} {p : α → Bool} {l : List α} {a : α}
    (h : l.find? p = some a) (f : α → α) :
    ∃ l₁ l₂, l = l₁ ++ a :: l₂ ∧ updateFirst p f l = l₁ ++ f a :: l₂
      ∧ ∀ x ∈ l₁, ¬p x := by
  induction l with
  | nil => simp at h
  | cons y ys ih =>
    by_cases hy : p y
    · rw [List.find?_cons_of_pos _ hy] at h
      injection h with h
      subst h
      exact ⟨[], ys, rfl, by simp [updateFirst, hy], by simp⟩
    · rw [List.find?_cons_of_neg _ hy] at h
      rcases ih h with ⟨l₁, l₂, e1, e2, hfree⟩
      refine ⟨y :: l₁, l₂, by rw [e1]; rfl, ?_, ?_⟩
      · simp only [updateFirst, if_neg hy, e2, List.cons_append]
      · intro x hx
        rcases List.mem_cons.1 hx with rfl | hx
        · exact hy
        · exact hfree x hx

theorem mem_updateFirst {α : Type} {p : α → Bool} {f : α → α} :
    ∀ {l : List α} {x : α}, x ∈ updateFirst p f l → x ∈ l ∨ ∃ a ∈ l, x = f a := by
  intro l
  induction l with
  | nil => intro x hx; exact absurd hx (List.not_mem_nil x)
  | cons y ys ih =>
    intro x hx
    by_cases hy : p y
    · simp only [updateFirst, if_pos hy] at hx
      rcases List.mem_cons.1 hx with rfl | hx
      · exact Or.inr ⟨y, List.mem_cons_self y ys, rfl⟩
      · exact Or.inl (List.mem_cons_of_mem _ hx)
    · simp only [updateFirst, if_neg hy] at hx
      rcases List.mem_cons.1 hx with rfl | hx
      · exact Or.inl (List.mem_cons_self _ _)
      · rcases ih hx with h | ⟨a, ha, rfl⟩
        · exact Or.inl (List.mem_cons_of_mem _ h)
        · exact Or.inr ⟨a, List.mem_cons_of_mem _ ha, rfl⟩

theorem mem_updateFirst_strong {α : Type} {p : α → Bool} {f : α → α} {l : List α}
    {a x : α} (hfind : l.find? p = some a) (h : x ∈ updateFirst p f l) :
    x ∈ l ∨ x = f a := by
  rcases updateFirst_decomp hfind f with ⟨l₁, l₂, e1, e2, _⟩
  rw [e2] at h
  rcases List.mem_append.1 h with h | h
  · exact Or.inl (by rw [e1]; exact List.mem_append.2 (Or.inl h))
  · rcases List.mem_cons.1 h with rfl | h
    · exact Or.inr rfl
    · exact Or.inl (by rw [e1]; exact List.mem_append.2 (Or.inr (List.mem_cons_of_mem _ h)))

theorem id_inj_of_nodup {l : List UserNFT}
    (hnd : (l.map (fun x => x.id)).Nodup) {a b : UserNFT}
    (ha : a ∈ l) (hb : b ∈ l) (h : a.id = b.id) : a = b :=
  List.inj_on_of_nodup_map hnd ha hb h

theorem mem_le_maxUserNftId : ∀ {l : List UserNFT} {x : UserNFT}, x ∈ l →
    x.id ≤ maxUserNftId l := by
  intro l
  induction l with
  | nil => intro x hx; exact absurd hx (List.not_mem_nil x)
  | cons y ys ih =>
    intro x hx
    rcases List.mem_cons.1 hx with rfl | hx
    · exact le_max_left _ _
    · exact le_trans (ih hx) (le_max_right _ _)

theorem sellPred_iff {nid uid : Nat} {un : UserNFT} :
    sellPred nid uid un = true ↔ un.id = nid ∧ un.user_id = uid ∧ un.is_sold = false := by
  unfold sellPred
  simp [and_assoc]

theorem find?_sellPred_after_mark {l : List UserNFT} {nid uid : Nat} {un : UserNFT}
    {f : UserNFT → UserNFT}
    (hnd : (l.map (fun x => x.id)).Nodup)
    (hfind : l.find? (sellPred nid uid) = some un)
    (hf : ∀ x, (f x).is_sold = true) :
    (updateFirst (sellPred nid uid) f l).find? (sellPred nid uid) = none := by
  rcases updateFirst_decomp hfind f with ⟨l₁, l₂, e1, e2, hfree⟩
  have hunid : un.id = nid := (sellPred_iff.1 (List.find?_some hfind)).1
  have hnotmem : un.id ∉ l₂.map (fun x => x.id) := by
    rw [e1] at hnd
    simp only [List.map_append, List.map_cons] at hnd
    exact (List.nodup_cons.1 (List.Nodup.of_append_right hnd)).1
  rw [e2]
  apply List.find?_eq_none.2
  intro x hx
  rcases List.mem_append.1 hx with hx | hx
  · exact hfree x hx
  · rcases List.mem_cons.1 hx with rfl | hx
    · intro hpx
      have := (sellPred_iff.1 hpx).2.2
      rw [hf un] at this
      exact absurd this (by simp)
    · intro hpx
      apply hnotmem
      have hxid : x.id = nid := (sellPred_iff.1 hpx).1
      rw [← hunid] at hxid
      exact hxid ▸ List.mem_map_of_mem (fun y => y.id) hx

/-! ## Sold entries never return to owned -/

/-- Once an inventory entry is sold, every entry carrying its id in the
successor store is still sold. -/
def soldStays (db db' : DB) : Prop :=
  ∀ un ∈ db.user_nfts, un.is_sold = true →
    ∀ un' ∈ db'.user_nfts, un'.id = un.id → un'.is_sold = true

theorem soldStays_same {db db' : DB}
    (hnd : (db.user_nfts.map (fun x => x.id)).Nodup)
    (h : db'.user_nfts = db.user_nfts) : soldStays db db' := by
  intro un hm hs un' hm' hid
  rw [h] at hm'
  rw [id_inj_of_nodup hnd hm' hm hid]
  exact hs

theorem soldStays_append_fresh {db db' : DB} {fresh : UserNFT}
    (hnd : (db.user_nfts.map (fun x => x.id)).Nodup)
    (h : db'.user_nfts = db.user_nfts ++ [fresh])
    (hid : fresh.id = maxUserNftId db.user_nfts + 1) : soldStays db db' := by
  intro un hm hs un' hm' hident
  rw [h] at hm'
  rcases List.mem_append.1 hm' with hm' | hm'
  · rw [id_inj_of_nodup hnd hm' hm hident]
    exact hs
  · rcases List.mem_cons.1 hm' with rfl | hm'
    · exfalso
      have hle := mem_le_maxUserNftId hm
      rw [← hident, hid] at hle
      exact Nat.not_succ_le_self _ hle
    · exact absurd hm' (List.not_mem_nil un')

theorem soldStays_mark {db db' : DB} {nid uid : Nat} {a : UserNFT}
    {f : UserNFT → UserNFT}
    (hnd : (db.user_nfts.map (fun x => x.id)).Nodup)
    (hfind : db.user_nfts.find? (sellPred nid uid) = some a)
    (hf : ∀ x, (f x).is_sold = true)
    (h : db'.user_nfts = updateFirst (sellPred nid uid) f db.user_nfts) :
    soldStays db db' := by
  intro un hm hs un' hm' hid
  rw [h] at hm'
  rcases mem_updateFirst_strong hfind hm' with hm' | rfl
  · rw [id_inj_of_nodup hnd hm' hm hid]
    exact hs
  · exact hf a

theorem mem_updateFirst_eq_of_key {α : Type} (key : α → Nat) {p : α → Bool} {f : α → α}
    {l : List α} {a : α} (hnd : (l.map key).Nodup) (hfind : l.find? p = some a)
    {x : α} (hx : x ∈ updateFirst p f l) (hid : key x = key a) : x = f a := by
  rcases updateFirst_decomp hfind f with ⟨l₁, l₂, e1, e2, _⟩
  rw [e1] at hnd
  simp only [List.map_append, List.map_cons] at hnd
  have hdisj := List.disjoint_of_nodup_append hnd
  have hnotl2 := (List.nodup_cons.1 (List.Nodup.of_append_right hnd)).1
  rw [e2] at hx
  rcases List.mem_append.1 hx with hx | hx
  · exact absurd (List.mem_cons_self _ _)
      (fun hmem => hdisj (hid ▸ List.mem_map_of_mem key hx) hmem)
  · rcases List.mem_cons.1 hx with rfl | hx
    · rfl
    · exact absurd (hid ▸ List.mem_map_of_mem key hx) hnotl2

theorem truncMul07_nonneg {p : Int} (h : 0 ≤ p) : 0 ≤ truncMul07 p := by
  unfold truncMul07
  rw [if_pos h]
  exact Int.natCast_nonneg _

/-- The row update applied to a sold entry by sell_nft. -/
def markSold (sp : Int) (x : UserNFT) : UserNFT :=
  { x with is_sold := true, sold_price := some sp }

/-- The row update applied to the credited user by sell_nft. -/
def creditBalance (sp : Int) (x : User) : User :=
  { x with stars_balance := x.stars_balance + sp }

theorem sell_nft_eq (db : DB) (nid uid : Nat) :
    sell_nft db nid uid =
      match db.user_nfts.find? (sellPred nid uid) with
      | none => some (none, db)
      | some un =>
        match db.nfts.find? (fun n => n.id == un.nft_id) with
        | none => none
        | some nft =>
          match db.users.find? (fun u => u.id == uid) with
          | none => none
          | some _ =>
            some (some (truncMul07 nft.price),
              { db with
                user_nfts := updateFirst (sellPred nid uid)
                  (markSold (truncMul07 nft.price)) db.user_nfts,
                users := updateFirst (fun u => u.id == uid)
                  (creditBalance (truncMul07 nft.price)) db.users }) := by
  unfold sell_nft markSold creditBalance
  rfl


theorem sell_nft_inv {db : DB} {nid uid : Nat} {res : Option Int} {db' : DB}
    (h : sell_nft db nid uid = some (res, db')) :
    (res = none ∧ db' = db ∧ db.user_nfts.find? (sellPred nid uid) = none)
    ∨ ∃ un nft u, db.user_nfts.find? (sellPred nid uid) = some un
        ∧ db.nfts.find? (fun n => n.id == un.nft_id) = some nft
        ∧ db.users.find? (fun x => x.id == uid) = some u
        ∧ res = some (truncMul07 nft.price)
        ∧ db' = { db with
            user_nfts := updateFirst (sellPred nid uid)
              (markSold (truncMul07 nft.price)) db.user_nfts,
            users := updateFirst (fun x => x.id == uid)
              (creditBalance (truncMul07 nft.price)) db.users } := by
  rw [sell_nft_eq] at h
  split at h
  · rename_i heq
    simp only [Option.some.injEq, Prod.mk.injEq] at h
    exact Or.inl ⟨h.1.symm, h.2.symm, heq⟩
  · rename_i un heq
    split at h
    · exact absurd h (by simp)
    · rename_i nft heq2
      split at h
      · exact absurd h (by simp)
      · rename_i u heq3
        simp only [Option.some.injEq, Prod.mk.injEq] at h
        exact Or.inr ⟨un, nft, u, heq, heq2, heq3, h.1.symm, h.2.symm⟩

/-- Claim C4: sell_nft fails, returning None with the store untouched,
whenever the inventory entry is absent, not owned by the caller, or
already sold; a second sale of a just-sold entry fails the same way,
crediting nothing; and a sold entry never returns to the owned state
under any operation of the model. -/
theorem sell_nft_notfound_and_sold_terminal (db : DB) (nid uid : Nat)
    (hnd : (db.user_nfts.map (fun x => x.id)).Nodup) :
    ((∀ un ∈ db.user_nfts, ¬(un.id = nid ∧ un.user_id = uid ∧ un.is_sold = false)) →
      sell_nft db nid uid = some (none, db))
    ∧ (∀ p db', sell_nft db nid uid = some (some p, db') →
        sell_nft db' nid uid = some (none, db'))
    ∧ (∀ a b res db', sell_nft db a b = some (res, db') → soldStays db db')
    ∧ (∀ u n c, soldStays db (add_nft_to_inventory db u n c).2)
    ∧ (∀ t a b c, soldStays db (get_or_create_user db t a b c).2)
    ∧ (∀ u2 c2 r, soldStays db (openCase db u2 c2 r).2) := by
  refine ⟨?_, ?_, ?_, ?_, ?_, ?_⟩
  · intro h
    have hnone : db.user_nfts.find? (sellPred nid uid) = none :=
      List.find?_eq_none.2 (fun x hx hp => h x hx (sellPred_iff.1 hp))
    rw [sell_nft_eq, hnone]
  · intro p db' hsell
    rcases sell_nft_inv hsell with ⟨hres, _, _⟩ | ⟨un, nft, u, hfind, _, _, _, hdb'⟩
    · exact absurd hres (by simp)
    · have hnone : (updateFirst (sellPred nid uid)
          (markSold (truncMul07 nft.price)) db.user_nfts).find? (sellPred nid uid)
            = none :=
        find?_sellPred_after_mark hnd hfind (fun x => rfl)
      have hunfts : db'.user_nfts = updateFirst (sellPred nid uid)
          (markSold (truncMul07 nft.price)) db.user_nfts := by
        rw [hdb']
      rw [sell_nft_eq, hunfts, hnone]
  · intro a b res db' hsell
    rcases sell_nft_inv hsell with ⟨_, hdb', _⟩ | ⟨un, nft, u, hfind, _, _, _, hdb'⟩
    · exact soldStays_same hnd (by rw [hdb'])
    · exact soldStays_mark hnd hfind (fun x => rfl) (by rw [hdb'])
  · intro u n c
    exact soldStays_append_fresh hnd rfl rfl
  · intro t a b c
    unfold get_or_create_user
    rcases hfu : db.users.find? (fun x => x.telegram_id == t) with _ | u
    · rw [hfu]
      exact soldStays_same hnd rfl
    · rw [hfu]
      exact soldStays_same hnd rfl
  · intro u2 c2 r
    rcases hu : db.users.find? (fun x => x.id == u2) with _ | user
    · unfold openCase
      rw [hu]
      exact soldStays_same hnd rfl
    · rcases hc : db.cases.find? (fun x => x.id == c2 && x.is_active) with _ | c
      · unfold openCase
        rw [hu, hc]
        exact soldStays_same hnd rfl
      · rw [openCase_found hu hc]
        unfold openCaseChecked
        by_cases hpool : get_case_nfts db c2 = []
        · rw [if_pos hpool]
          exact soldStays_same hnd rfl
        · rw [if_neg hpool]
          by_cases hfunds : user.stars_balance < c.price_stars
          · rw [if_pos hfunds]
            exact soldStays_same hnd rfl
          · rw [if_neg hfunds]
            rcases hoc : open_case (get_case_nfts db c2) r with _ | item
            · exact soldStays_same hnd rfl
            · exact soldStays_append_fresh hnd rfl rfl

/-- Store with one already-sold inventory entry, for the C4 witness. -/
def soldDB : DB :=
  { users := [sampleUser], nfts := [], cases := [], case_nfts := [],
    user_nfts := [{ id := 1, user_id := 1, nft_id := 1, is_sold := true,
                    sold_price := some 70, opened_from_case_id := none }],
    history := [] }

/-- Witness for C4: selling an already-sold entry returns None and
leaves the store untouched. -/
theorem sell_nft_notfound_and_sold_terminal_witness :
    sell_nft soldDB 1 1 = some (none, soldDB) :=
  (sell_nft_notfound_and_sold_terminal soldDB 1 1 (by decide)).1 (by decide)

/-- Store with an unsold entry for an item priced 90, held by a user
with balance 0: the C3 counterexample input. -/
def sellCexDB : DB :=
  { users := [{ id := 1, telegram_id := 9, username := none, first_name := none,
                last_name := none, stars_balance := 0, total_spent_stars := 0,
                total_cases_opened := 0 }],
    nfts := [{ id := 1, name := "gift", description := none, rarity := "common",
               price := 90, image_url := none, is_active := true }],
    cases := [], case_nfts := [],
    user_nfts := [{ id := 1, user_id := 1, nft_id := 1, is_sold := false,
                    sold_price := none, opened_from_case_id := none }],
    history := [] }

/-- Claim C3 counterexample: on an item priced 90 the sale credits 62
stars, not floor(90 * 7 / 10) = 63: the binary64 product 90 * 0.7 is
62.99999999999999, which int() truncates to 62. -/
theorem sell_nft_not_exact_seventy_percent :
    ((sell_nft sellCexDB 1 1).map (fun x => x.1) = some (some 62))
    ∧ ((sell_nft sellCexDB 1 1).map
        (fun x => x.2.users.map (fun u => u.stars_balance)) = some [62])
    ∧ (7 * (90 : Int)) / 10 = 63 := by
  refine ⟨?_, ?_, ?_⟩ <;> decide

/-- Claim C3 amended: a successful sale credits, records and returns
exactly int(p * 0.7) computed in binary64 floating point — 70 for the
price 100 — and the credit is applied once: a second sale of the same
entry fails and changes nothing. -/
theorem sell_nft_credits_binary64_seventy_percent
    (db : DB) (nid uid : Nat) (un : UserNFT) (nft : NFT) (u : User)
    (hfind : db.user_nfts.find? (sellPred nid uid) = some un)
    (hnft : db.nfts.find? (fun n => n.id == un.nft_id) = some nft)
    (hu : db.users.find? (fun x => x.id == uid) = some u)
    (hp : 0 ≤ nft.price)
    (hndu : (db.users.map (fun x => x.id)).Nodup)
    (hnd : (db.user_nfts.map (fun x => x.id)).Nodup) :
    ∃ db', sell_nft db nid uid = some (some (truncMul07 nft.price), db')
      ∧ 0 ≤ truncMul07 nft.price
      ∧ (∀ u' ∈ db'.users, u'.id = uid →
          u'.stars_balance = u.stars_balance + truncMul07 nft.price)
      ∧ (∀ e ∈ db'.user_nfts, e.id = nid →
          e.is_sold = true ∧ e.sold_price = some (truncMul07 nft.price))
      ∧ sell_nft db' nid uid = some (none, db')
      ∧ truncMul07 100 = 70 := by
  refine ⟨{ db with
      user_nfts := updateFirst (sellPred nid uid)
        (markSold (truncMul07 nft.price)) db.user_nfts,
      users := updateFirst (fun x => x.id == uid)
        (creditBalance (truncMul07 nft.price)) db.users },
    ?_, truncMul07_nonneg hp, ?_, ?_, ?_, by decide⟩
  · rw [sell_nft_eq]
    simp only [hfind, hnft, hu]
  · intro u' hm' hid'
    have haid : u.id = uid := by simpa using List.find?_some hu
    have he : u' = creditBalance (truncMul07 nft.price) u :=
      mem_updateFirst_eq_of_key (fun x => x.id) hndu hu hm'
        (by show u'.id = u.id; rw [hid', haid])
    rw [he]
    rfl
  · intro e hm' hid'
    have haid : un.id = nid := (sellPred_iff.1 (List.find?_some hfind)).1
    have he : e = markSold (truncMul07 nft.price) un :=
      mem_updateFirst_eq_of_key (fun x => x.id) hnd hfind hm'
        (by show e.id = un.id; rw [hid', haid])
    rw [he]
    exact ⟨rfl, rfl⟩
  · have hnone : (updateFirst (sellPred nid uid)
        (markSold (truncMul07 nft.price)) db.user_nfts).find? (sellPred nid uid)
          = none :=
      find?_sellPred_after_mark hnd hfind (fun x => rfl)
    rw [sell_nft_eq]
    simp only [hnone]

/-- Witness for the amended C3: with an item priced 100 the sale credits
exactly 70. -/
def sellDB100 : DB :=
  { users := [{ id := 1, telegram_id := 9, username := none, first_name := none,
                last_name := none, stars_balance := 5, total_spent_stars := 0,
                total_cases_opened := 0 }],
    nfts := [{ id := 1, name := "gift", description := none, rarity := "common",
               price := 100, image_url := none, is_active := true }],
    cases := [], case_nfts := [],
    user_nfts := [{ id := 1, user_id := 1, nft_id := 1, is_sold := false,
                    sold_price := none, opened_from_case_id := none }],
    history := [] }

/-- Witness for the amended C3 at the store sellDB100. -/
theorem sell_nft_credits_binary64_seventy_percent_witness :
    ∃ db', sell_nft sellDB100 1 1 = some (some (truncMul07 100), db')
      ∧ 0 ≤ truncMul07 (100 : Int)
      ∧ (∀ u' ∈ db'.users, u'.id = 1 →
          u'.stars_balance = (5 : Int) + truncMul07 100)
      ∧ (∀ e ∈ db'.user_nfts, e.id = 1 →
          e.is_sold = true ∧ e.sold_price = some (truncMul07 100))
      ∧ sell_nft db' 1 1 = some (none, db')
      ∧ truncMul07 100 = 70 :=
  sell_nft_credits_binary64_seventy_percent sellDB100 1 1
    { id := 1, user_id := 1, nft_id := 1, is_sold := false,
      sold_price := none, opened_from_case_id := none }
    { id := 1, name := "gift", description := none, rarity := "common",
      price := 100, image_url := none, is_active := true }
    { id := 1, telegram_id := 9, username := none, first_name := none,
      last_name := none, stars_balance := 5, total_spent_stars := 0,
      total_cases_opened := 0 }
    (by decide) (by decide) (by decide) (by decide) (by decide) (by decide)

/-! ## Balance invariant -/

/-- Every stored balance is non-negative. -/
def balancesNonneg (db : DB) : Prop := ∀ u ∈ db.users, 0 ≤ u.stars_balance

instance (db : DB) : Decidable (balancesNonneg db) := by
  unfold balancesNonneg; infer_instance

/-- Every item price is non-negative. -/
def nftPricesNonneg (db : DB) : Prop := ∀ n ∈ db.nfts, 0 ≤ n.price

instance (db : DB) : Decidable (nftPricesNonneg db) := by
  unfold nftPricesNonneg; infer_instance

/-- Every case price is non-negative. -/
def casePricesNonneg (db : DB) : Prop := ∀ c ∈ db.cases, 0 ≤ c.price_stars

instance (db : DB) : Decidable (casePricesNonneg db) := by
  unfold casePricesNonneg; infer_instance

/-- Claim C6: with non-negative item and case prices, every operation of
the model preserves non-negativity of all balances — creation starts at
1000, a sale credits a non-negative amount, an opening debits only after
the funds check — and the inventory insertion touches no user row. -/
theorem balances_nonneg_preserved (db : DB)
    (hb : balancesNonneg db) (hp : nftPricesNonneg db) (hcp : casePricesNonneg db) :
    (∀ t a b c, balancesNonneg (get_or_create_user db t a b c).2)
    ∧ (∀ u n c, balancesNonneg (add_nft_to_inventory db u n c).2
        ∧ (add_nft_to_inventory db u n c).2.users = db.users)
    ∧ (∀ nid uid res db', sell_nft db nid uid = some (res, db') → balancesNonneg db')
    ∧ (∀ uid cid r, balancesNonneg (openCase db uid cid r).2) := by
  refine ⟨?_, ?_, ?_, ?_⟩
  · intro t a b c
    unfold get_or_create_user
    rcases hfu : db.users.find? (fun x => x.telegram_id == t) with _ | u
    · rw [hfu]
      intro x hx
      rcases List.mem_append.1 hx with hx | hx
      · exact hb x hx
      · rcases List.mem_cons.1 hx with rfl | hx
        · show (0 : Int) ≤ 1000
          norm_num
        · exact absurd hx (List.not_mem_nil x)
    · rw [hfu]
      exact hb
  · intro u n c
    exact ⟨hb, rfl⟩
  · intro nid uid res db' hsell
    rcases sell_nft_inv hsell with ⟨_, hdb', _⟩ | ⟨un, nft, u, hfind, hnft, hu, _, hdb'⟩
    · rw [hdb']
      exact hb
    · intro x hx
      have husers : db'.users = updateFirst (fun y => y.id == uid)
          (creditBalance (truncMul07 nft.price)) db.users := by
        rw [hdb']
      rw [husers] at hx
      rcases mem_updateFirst hx with hx | ⟨a, ha, rfl⟩
      · exact hb x hx
      · have hpr : 0 ≤ truncMul07 nft.price :=
          truncMul07_nonneg (hp nft (List.mem_of_find?_eq_some hnft))
        show 0 ≤ a.stars_balance + truncMul07 nft.price
        exact add_nonneg (hb a ha) hpr
  · intro uid cid r
    rcases hu : db.users.find? (fun x => x.id == uid) with _ | user
    · unfold openCase
      rw [hu]
      exact hb
    · rcases hc : db.cases.find? (fun x => x.id == cid && x.is_active) with _ | c
      · unfold openCase
        rw [hu, hc]
        exact hb
      · rw [openCase_found hu hc]
        unfold openCaseChecked
        by_cases hpool : get_case_nfts db cid = []
        · rw [if_pos hpool]
          exact hb
        · rw [if_neg hpool]
          by_cases hfunds : user.stars_balance < c.price_stars
          · rw [if_pos hfunds]
            exact hb
          · rw [if_neg hfunds]
            rcases hoc : open_case (get_case_nfts db cid) r with _ | item
            · exact hb
            · intro x hx
              rcases mem_updateFirst_strong hu hx with hx | rfl
              · exact hb x hx
              · show 0 ≤ user.stars_balance - c.price_stars
                exact Int.sub_nonneg.2 (le_of_not_lt hfunds)

/-- Witness for C6: a fresh first contact on the sample store keeps all
balances non-negative. -/
theorem balances_nonneg_preserved_witness :
    balancesNonneg (get_or_create_user sampleDB 7 none none none).2 :=
  (balances_nonneg_preserved sampleDB (by decide) (by decide) (by decide)).1 7 none none none

/-! ## The weighted draw -/

theorem firstExceed_lt_length : ∀ {ws : List ℚ} {r : ℚ}, 0 ≤ r → r < ws.sum →
    firstExceed ws r < ws.length := by
  intro ws
  induction ws with
  | nil =>
    intro r h0 hr
    rw [List.sum_nil] at hr
    exact absurd (lt_of_le_of_lt h0 hr) (lt_irrefl 0)
  | cons w ws ih =>
    intro r h0 hr
    unfold firstExceed
    by_cases hw : r < w
    · rw [if_pos hw]
      simp
    · rw [if_neg hw]
      simp only [List.length_cons]
      have h0' : 0 ≤ r - w := sub_nonneg.2 (le_of_not_lt hw)
      have hr' : r - w < ws.sum := by
        have h2 := sub_lt_sub_right hr w
        rw [List.sum_cons, add_sub_cancel_left] at h2
        exact h2
      exact Nat.succ_lt_succ (ih h0' hr')

theorem firstExceed_exceeds : ∀ {ws : List ℚ} {r : ℚ}, 0 ≤ r → r < ws.sum →
    r < ((ws.take (firstExceed ws r + 1)).sum) := by
  intro ws
  induction ws with
  | nil =>
    intro r h0 hr
    rw [List.sum_nil] at hr
    exact absurd (lt_of_le_of_lt h0 hr) (lt_irrefl 0)
  | cons w ws ih =>
    intro r h0 hr
    unfold firstExceed
    by_cases hw : r < w
    · rw [if_pos hw]
      simpa using hw
    · rw [if_neg hw]
      have h0' : 0 ≤ r - w := sub_nonneg.2 (le_of_not_lt hw)
      have hr' : r - w < ws.sum := by
        have h2 := sub_lt_sub_right hr w
        rw [List.sum_cons, add_sub_cancel_left] at h2
        exact h2
      have hih := ih h0' hr'
      rw [List.take_succ_cons, List.sum_cons]
      exact sub_lt_iff_lt_add'.1 hih

theorem firstExceed_min : ∀ {ws : List ℚ} {r : ℚ} (j : Nat),
    j < firstExceed ws r → ((ws.take (j + 1)).sum) ≤ r := by
  intro ws
  induction ws with
  | nil =>
    intro r j hj
    exact absurd hj (by simp [firstExceed])
  | cons w ws ih =>
    intro r j hj
    unfold firstExceed at hj
    by_cases hw : r < w
    · rw [if_pos hw] at hj
      exact absurd hj (Nat.not_lt_zero j)
    · rw [if_neg hw] at hj
      cases j with
      | zero =>
        simpa using le_of_not_lt hw
      | succ j' =>
        have hj' : j' < firstExceed ws (r - w) := Nat.lt_of_succ_lt_succ hj
        have hih := ih j' hj'
        rw [List.take_succ_cons, List.sum_cons]
        exact le_sub_iff_add_le'.1 hih

/-- Claim C8: on a non-empty pool with positive weights and a draw point
r in [0, total weight), the selector returns precisely the first
candidate, in list order, whose cumulative weight strictly exceeds r;
in particular the drawn item is an element of the pool. -/
theorem open_case_first_cumulative (pool : List CaseItem) (r : ℚ)
    (hne : pool ≠ []) (hwpos : ∀ i ∈ pool, 0 < i.chance)
    (h0 : 0 ≤ r) (hr : r < (pool.map (fun i => i.chance)).sum) :
    ∃ (i : Nat) (hi : i < pool.length),
      open_case pool r = some (pool.get ⟨i, hi⟩)
      ∧ pool.get ⟨i, hi⟩ ∈ pool
      ∧ r < ((pool.map (fun i => i.chance)).take (i + 1)).sum
      ∧ ∀ j, j < i → ((pool.map (fun i => i.chance)).take (j + 1)).sum ≤ r := by
  have hlen : firstExceed (pool.map (fun i => i.chance)) r < pool.length := by
    have h := firstExceed_lt_length h0 hr
    rw [List.length_map] at h
    exact h
  refine ⟨firstExceed (pool.map (fun i => i.chance)) r, hlen, ?_,
    List.get_mem pool _ hlen, firstExceed_exceeds h0 hr, fun j hj => firstExceed_min j hj⟩
  unfold open_case
  rw [if_neg hne, Nat.min_eq_left (Nat.le_sub_one_of_lt hlen)]
  exact List.get?_eq_get hlen

/-- Pool with weights 1, 1 and 2, for the C8 witness. -/
def poolW : List CaseItem :=
  [{ id := 1, name := "a", description := none, rarity := "common",
     price := 10, image_url := none, chance := 1 },
   { id := 2, name := "b", description := none, rarity := "rare",
     price := 20, image_url := none, chance := 1 },
   { id := 3, name := "c", description := none, rarity := "epic",
     price := 30, image_url := none, chance := 2 }]

/-- Witness for C8: at the draw point 5/2 in the pool weighted 1, 1, 2
the selector lands on the first index whose cumulative weight exceeds
5/2, namely the third item. -/
theorem open_case_first_cumulative_witness :
    ∃ (i : Nat) (hi : i < poolW.length),
      open_case poolW (5/2) = some (poolW.get ⟨i, hi⟩)
      ∧ poolW.get ⟨i, hi⟩ ∈ poolW
      ∧ (5/2 : ℚ) < ((poolW.map (fun i => i.chance)).take (i + 1)).sum
      ∧ ∀ j, j < i → ((poolW.map (fun i => i.chance)).take (j + 1)).sum ≤ (5/2 : ℚ) :=
  open_case_first_cumulative poolW (5/2) (by decide)
    (by intro i hi; fin_cases hi <;> norm_num [poolW])
    (by norm_num) (by norm_num [poolW])
